import Mathlib

/-!
# Verification of the document ingestion and retrieval-augmented answering pipeline

A shallow embedding, in Lean 4, of the core of the `team-blue` legal-document
QA application: namespace normalization, the overlap-based chunker, batched
embedding generation, the ingestion pipeline's effect ordering, the OCR
cleanup protocol, the grounded-QA path, the document-search aggregation and
the label endpoint.  Text is modelled as `List Char`; JavaScript string
primitives (`slice`, `trim`, `toLowerCase`, regex searches) are modelled
character-for-character, including JavaScript's negative-index wrap-around
in `String.prototype.slice`.  Similarity scores (IEEE doubles in the source)
are modelled as rationals: every property proved here is about ordering and
structure, not rounding.
-/

namespace TeamBlue

/-! ## JavaScript string primitives -/

/-- The whitespace characters recognised by both `String.prototype.trim` and
the regex class `\s` (space, tab, LF, VT, FF, CR). Exotic Unicode space
characters are omitted; no claim in this development depends on them. -/
def isJsSpace (c : Char) : Bool :=
  c.toNat == 32 || c.toNat == 9 || c.toNat == 10 ||
  c.toNat == 11 || c.toNat == 12 || c.toNat == 13

/-- JavaScript `String.prototype.slice(a, b)`: a negative index counts from
the end of the string (`max (len + i) 0`), a positive one is clamped to the
length, and an inverted range yields the empty string. -/
def jsSlice (s : List Char) (a b : Int) : List Char :=
  let len : Int := s.length
  let a' : Int := if a < 0 then max (len + a) 0 else min a len
  let b' : Int := if b < 0 then max (len + b) 0 else min b len
  (s.take b'.toNat).drop a'.toNat

/-- JavaScript `String.prototype.trim()`. -/
def jsTrim (s : List Char) : List Char :=
  (s.dropWhile isJsSpace).rdropWhile isJsSpace

/-- JavaScript `String.prototype.toLowerCase()` restricted to ASCII:
`A`–`Z` shift by 32, anything else is untouched.  (For non-ASCII letters the
source and this model can differ, but every non-ASCII letter is collapsed to
`-` by the namespace regex either way.) -/
def jsToLower (c : Char) : Char :=
  if 65 ≤ c.toNat && c.toNat ≤ 90 then Char.ofNat (c.toNat + 32) else c

/-! ## Namespace normalization

Both the ingestion route and the QA route derive the Pinecone namespace with
the expression `raw.trim().toLowerCase().replace(/[^a-z0-9_-]+/g, "-")`. -/

/-- Membership in the regex character class `[a-z0-9_-]`
(codes: `a`–`z` = 97–122, `0`–`9` = 48–57, `_` = 95, `-` = 45). -/
def allowedNsChar (c : Char) : Bool :=
  (97 ≤ c.toNat && c.toNat ≤ 122) || (48 ≤ c.toNat && c.toNat ≤ 57) ||
  c.toNat == 95 || c.toNat == 45

/-- Run-collapsing core of `replace(/[^a-z0-9_-]+/g, "-")`. The boolean flag
records whether the previous character was part of a run of characters
outside the class (in which case the run's `-` has already been emitted). -/
def collapseRunsAux : Bool → List Char → List Char
  | _, [] => []
  | inRun, c :: rest =>
    if allowedNsChar c then c :: collapseRunsAux false rest
    else if inRun then collapseRunsAux true rest
    else '-' :: collapseRunsAux true rest

/-- `replace(/[^a-z0-9_-]+/g, "-")`: every maximal run of characters outside
the class is replaced by a single `-`. -/
def collapseRuns (l : List Char) : List Char :=
  collapseRunsAux false l

/-- The namespace derivation at the ingestion site:
`caseName.trim().toLowerCase().replace(/[^a-z0-9_-]+/g, "-")`
(upload pipeline, step 5). -/
def normalizeIngest (s : List Char) : List Char :=
  collapseRuns ((jsTrim s).map jsToLower)

/-- The namespace derivation at the query site:
`rawCollectionName.trim().toLowerCase().replace(/[^a-z0-9_-]+/g, "-")`
(QA route, before the vector query; the search route uses the same
expression). -/
def normalizeQuery (s : List Char) : List Char :=
  collapseRuns ((jsTrim s).map jsToLower)

theorem collapseRunsAux_allowed :
    ∀ (b : Bool) (l : List Char), ∀ c ∈ collapseRunsAux b l, allowedNsChar c = true := by
  intro b l
  induction l generalizing b with
  | nil => intro c hc; exact absurd hc (List.not_mem_nil c)
  | cons c rest ih =>
    intro d hd
    by_cases h : allowedNsChar c = true
    · rw [collapseRunsAux, if_pos h] at hd
      rw [List.mem_cons] at hd
      rcases hd with hd | hd
      · exact hd ▸ h
      · exact ih false d hd
    · rw [collapseRunsAux, if_neg h] at hd
      cases b with
      | true =>
        rw [if_pos rfl] at hd
        exact ih true d hd
      | false =>
        rw [if_neg (by decide)] at hd
        rw [List.mem_cons] at hd
        rcases hd with hd | hd
        · subst hd; decide
        · exact ih true d hd

theorem collapseRuns_allowed (l : List Char) :
    ∀ c ∈ collapseRuns l, allowedNsChar c = true :=
  collapseRunsAux_allowed false l

theorem allowedNsChar_not_space {c : Char} (h : allowedNsChar c = true) :
    isJsSpace c = false := by
  simp only [allowedNsChar, Bool.or_eq_true, Bool.and_eq_true, decide_eq_true_eq,
    beq_iff_eq] at h
  simp only [isJsSpace, Bool.or_eq_false_iff, beq_eq_false_iff_ne, ne_eq]
  omega

theorem allowedNsChar_toLower {c : Char} (h : allowedNsChar c = true) :
    jsToLower c = c := by
  simp only [allowedNsChar, Bool.or_eq_true, Bool.and_eq_true, decide_eq_true_eq,
    beq_iff_eq] at h
  unfold jsToLower
  have hc : (65 ≤ c.toNat && c.toNat ≤ 90) = false := by
    simp only [Bool.and_eq_false_iff, decide_eq_false_iff_not]
    omega
  rw [hc]
  simp

theorem dropWhile_eq_self_of_none {p : Char → Bool} {l : List Char}
    (h : ∀ c ∈ l, p c = false) : l.dropWhile p = l := by
  cases l with
  | nil => rfl
  | cons c rest =>
    rw [List.dropWhile_cons, h c (List.mem_cons_self c rest)]
    simp

theorem rdropWhile_eq_self_of_none {p : Char → Bool} {l : List Char}
    (h : ∀ c ∈ l, p c = false) : l.rdropWhile p = l := by
  rw [List.rdropWhile]
  rw [dropWhile_eq_self_of_none (by intro c hc; exact h c (List.mem_reverse.mp hc))]
  simp

theorem jsTrim_eq_self_of_allowed {l : List Char}
    (h : ∀ c ∈ l, allowedNsChar c = true) : jsTrim l = l := by
  unfold jsTrim
  rw [dropWhile_eq_self_of_none (fun c hc => allowedNsChar_not_space (h c hc))]
  rw [rdropWhile_eq_self_of_none (fun c hc => allowedNsChar_not_space (h c hc))]

theorem map_toLower_eq_self_of_allowed {l : List Char}
    (h : ∀ c ∈ l, allowedNsChar c = true) : l.map jsToLower = l := by
  induction l with
  | nil => rfl
  | cons c rest ih =>
    simp only [List.map_cons]
    rw [allowedNsChar_toLower (h c (List.mem_cons_self c rest)),
      ih (fun d hd => h d (List.mem_cons_of_mem c hd))]

theorem collapseRuns_eq_self_of_allowed {l : List Char}
    (h : ∀ c ∈ l, allowedNsChar c = true) : collapseRuns l = l := by
  unfold collapseRuns
  induction l with
  | nil => rfl
  | cons c rest ih =>
    rw [collapseRunsAux, if_pos (h c (List.mem_cons_self c rest))]
    rw [ih (fun d hd => h d (List.mem_cons_of_mem c hd))]

/-- **C6.** The namespace normalization `lowercase(trim(x))` with runs of
characters outside `[a-z0-9_-]` collapsed to a single `-` is idempotent, the
ingestion-site and query-site derivations are the identical pure function,
and two raw case names differing only in letter case and punctuation (the
spec's example: `"Smith vs. Jones"` vs `"smith-vs-jones"`) map to the same
namespace. -/
theorem namespace_normalization_idempotent_and_shared :
    (∀ x : List Char, normalizeIngest (normalizeIngest x) = normalizeIngest x) ∧
    (∀ x : List Char, normalizeIngest x = normalizeQuery x) ∧
    normalizeIngest ("Smith vs. Jones".toList) =
      normalizeQuery ("smith-vs-jones".toList) := by
  refine ⟨?_, fun x => rfl, by decide⟩
  intro x
  unfold normalizeIngest
  have hall := collapseRuns_allowed ((jsTrim x).map jsToLower)
  rw [jsTrim_eq_self_of_allowed hall, map_toLower_eq_self_of_allowed hall]
  exact collapseRuns_eq_self_of_allowed hall

/-! ## The chunker

`chunkText(text, baseMetadata, docId, chunkSize = 1000, overlap = 200)` from
the ingestion route: walk the text in windows of `chunkSize` characters,
snap each non-final window end to a nearby sentence terminator or paragraph
break, trim the slice, and advance by `max (end - overlap) (start + 1)`.
The loop consumes strictly increasing `start` values below `text.length`,
so `text.length` steps of fuel always suffice (proved below as
`chunkGo_fuel_stable`); the fuel argument makes the definition structural
and hence kernel-computable. -/

/-- One record produced by `chunkText`; `metadata` models the spread
`{...baseMetadata}` and `doc_id` the `doc_id: docId` entry added to it. -/
structure Chunk (μ : Type) where
  content : List Char
  metadata : μ
  doc_id : String
  chunk_id : Nat
  start_char : Int
deriving DecidableEq, Repr

/-- `slice.match(/[.!?]\s/)`: index of the first sentence terminator that is
followed by a whitespace character, if any. -/
def findSentenceEnd : List Char → Option Nat
  | [] => none
  | [_] => none
  | c1 :: c2 :: rest =>
    if (c1 == '.' || c1 == '!' || c1 == '?') && isJsSpace c2 then some 0
    else (findSentenceEnd (c2 :: rest)).map (· + 1)

/-- `slice.indexOf("\n\n")`: index of the first paragraph break, if any
(`none` models the sentinel `-1`). -/
def findParaBreak : List Char → Option Nat
  | [] => none
  | [_] => none
  | c1 :: c2 :: rest =>
    if c1 == '\n' && c2 == '\n' then some 0
    else (findParaBreak (c2 :: rest)).map (· + 1)

/-- The boundary-snapping block of `chunkText`: starting from the naive end
`min (start + chunkSize) len`, when that end is strictly inside the text,
search `text.slice(end - 50, end + lookAhead)` for a sentence end or a
paragraph break and snap to it when its index is below `lookAhead`. -/
def chunkWindowEnd (text : List Char) (chunkSize start : Int) : Int :=
  let len : Int := text.length
  let end0 : Int := min (start + chunkSize) len
  if end0 < len then
    let lookAhead : Int := min 100 (len - end0)
    let slice := jsSlice text (end0 - 50) (end0 + lookAhead)
    match findSentenceEnd slice with
    | some idx =>
      if (idx : Int) < lookAhead then end0 - 50 + idx + 1
      else
        match findParaBreak slice with
        | some q => if (q : Int) < lookAhead then end0 - 50 + q else end0
        | none => end0
    | none =>
      match findParaBreak slice with
      | some q => if (q : Int) < lookAhead then end0 - 50 + q else end0
      | none => end0
  else end0

/-- The `while (start < text.length)` loop of `chunkText`.  Each iteration
computes the snapped window end, trims `text.slice(start, end)`, stops on an
empty trimmed slice, otherwise emits a chunk and advances `start` to
`max (end - overlap) (start + 1)`, stopping when that reaches the end. -/
def chunkGo {μ : Type} (text : List Char) (baseMetadata : μ) (docId : String)
    (chunkSize overlap : Int) : Nat → Int → Nat → List (Chunk μ)
  | 0, _, _ => []
  | fuel + 1, start, chunkId =>
    if start < (text.length : Int) then
      if jsTrim (jsSlice text start (chunkWindowEnd text chunkSize start)) = [] then []
      else
        { content := jsTrim (jsSlice text start (chunkWindowEnd text chunkSize start)),
          metadata := baseMetadata, doc_id := docId,
          chunk_id := chunkId, start_char := start } ::
          (if (text.length : Int) ≤ max (chunkWindowEnd text chunkSize start - overlap) (start + 1)
           then []
           else chunkGo text baseMetadata docId chunkSize overlap fuel
             (max (chunkWindowEnd text chunkSize start - overlap) (start + 1)) (chunkId + 1))
    else []

/-- `chunkText` from the ingestion route (the upload pipeline's chunker;
the source defaults are `chunkSize = 1000`, `overlap = 200`). -/
def chunkText {μ : Type} (text : List Char) (baseMetadata : μ) (docId : String)
    (chunkSize overlap : Int) : List (Chunk μ) :=
  if jsTrim text = [] then []
  else chunkGo text baseMetadata docId chunkSize overlap text.length 0 0

/-! ### Chunker lemmas -/

theorem jsTrim_length_le (l : List Char) : (jsTrim l).length ≤ l.length := by
  unfold jsTrim
  have h1 := (List.rdropWhile_prefix isJsSpace (l.dropWhile isJsSpace)).length_le
  have h2 := (List.dropWhile_suffix (l := l) isJsSpace).length_le
  omega

theorem jsSlice_length_le (s : List Char) (a b : Int) (ha : 0 ≤ a) (hb : 0 ≤ b) :
    ((jsSlice s a b).length : Int) ≤ max (b - a) 0 := by
  simp only [jsSlice, List.length_drop, List.length_take]
  rw [if_neg (not_lt.mpr ha), if_neg (not_lt.mpr hb)]
  omega

theorem chunkWindowEnd_nonneg (text : List Char) (cs start : Int)
    (h50 : 50 ≤ cs) (h0 : 0 ≤ start) : 0 ≤ chunkWindowEnd text cs start := by
  simp only [chunkWindowEnd]
  repeat' split
  all_goals omega

theorem chunkGo_invariants {μ : Type} (text : List Char) (meta : μ) (docId : String)
    (cs ov : Int) :
    ∀ (fuel : Nat) (start : Int) (id : Nat),
      (∀ c ∈ chunkGo text meta docId cs ov fuel start id, c.content ≠ []) ∧
      ((chunkGo text meta docId cs ov fuel start id).map (fun c => c.chunk_id)
        = List.range' id (chunkGo text meta docId cs ov fuel start id).length) ∧
      (∀ c, (chunkGo text meta docId cs ov fuel start id).head? = some c →
        c.start_char = start) ∧
      List.Chain' (fun a b => a.start_char < b.start_char)
        (chunkGo text meta docId cs ov fuel start id) ∧
      List.Chain' (fun a b => chunkWindowEnd text cs a.start_char - ov ≤ b.start_char)
        (chunkGo text meta docId cs ov fuel start id) ∧
      (chunkGo text meta docId cs ov fuel start id).length ≤ fuel := by
  intro fuel
  induction fuel with
  | zero => intro start id; simp [chunkGo]
  | succ n ih =>
    intro start id
    rw [chunkGo]
    by_cases hlt : start < (text.length : Int)
    · rw [if_pos hlt]
      by_cases hc : jsTrim (jsSlice text start (chunkWindowEnd text cs start)) = []
      · rw [if_pos hc]
        simp
      · rw [if_neg hc]
        by_cases hstop :
            (text.length : Int) ≤ max (chunkWindowEnd text cs start - ov) (start + 1)
        · rw [if_pos hstop]
          refine ⟨?_, by simp [List.range'], by simp, by simp, by simp, by simp⟩
          intro c hcmem
          rcases List.mem_cons.mp hcmem with h | h
          · subst h; simpa using hc
          · simp at h
        · rw [if_neg hstop]
          obtain ⟨ih1, ih2, ih3, ih4, ih5, ih6⟩ :=
            ih (max (chunkWindowEnd text cs start - ov) (start + 1)) (id + 1)
          refine ⟨?_, ?_, ?_, ?_, ?_, ?_⟩
          · intro c hcmem
            rcases List.mem_cons.mp hcmem with h | h
            · subst h; simpa using hc
            · exact ih1 c h
          · simp only [List.map_cons, List.length_cons, List.range']
            rw [ih2]
          · intro c hhd
            simp only [List.head?_cons, Option.some.injEq] at hhd
            subst hhd
            rfl
          · rw [List.chain'_cons']
            refine ⟨?_, ih4⟩
            intro y hy
            have := ih3 y (Option.mem_def.mp hy)
            simp only [this]
            omega
          · rw [List.chain'_cons']
            refine ⟨?_, ih5⟩
            intro y hy
            have := ih3 y (Option.mem_def.mp hy)
            simp only [this]
            omega
          · simp only [List.length_cons]
            omega
    · rw [if_neg hlt]
      simp

theorem chunkGo_overlap_chain {μ : Type} (text : List Char) (meta : μ) (docId : String)
    (cs ov : Int) (h50 : 50 ≤ cs) :
    ∀ (fuel : Nat) (start : Int) (id : Nat), 0 ≤ start →
      List.Chain' (fun a b => a.start_char + (a.content.length : Int) ≤ b.start_char + ov)
        (chunkGo text meta docId cs ov fuel start id) := by
  intro fuel
  induction fuel with
  | zero => intro start id h0; simp [chunkGo]
  | succ n ih =>
    intro start id h0
    rw [chunkGo]
    by_cases hlt : start < (text.length : Int)
    · rw [if_pos hlt]
      by_cases hc : jsTrim (jsSlice text start (chunkWindowEnd text cs start)) = []
      · rw [if_pos hc]; simp
      · rw [if_neg hc]
        by_cases hstop :
            (text.length : Int) ≤ max (chunkWindowEnd text cs start - ov) (start + 1)
        · rw [if_pos hstop]; simp
        · rw [if_neg hstop]
          rw [List.chain'_cons']
          have hnn : 0 ≤ chunkWindowEnd text cs start :=
            chunkWindowEnd_nonneg text cs start h50 h0
          have hlen : ((jsTrim (jsSlice text start (chunkWindowEnd text cs start))).length : Int)
              ≤ max (chunkWindowEnd text cs start - start) 0 := by
            have h1 := jsTrim_length_le (jsSlice text start (chunkWindowEnd text cs start))
            have h2 := jsSlice_length_le text start (chunkWindowEnd text cs start) h0 hnn
            omega
          have hne : (jsTrim (jsSlice text start (chunkWindowEnd text cs start))).length ≠ 0 :=
            fun h => hc (List.length_eq_zero.mp h)
          constructor
          · intro y hy
            have hys := (chunkGo_invariants text meta docId cs ov n
              (max (chunkWindowEnd text cs start - ov) (start + 1)) (id + 1)).2.2.1 y
              (Option.mem_def.mp hy)
            simp only [hys]
            omega
          · exact ih (max (chunkWindowEnd text cs start - ov) (start + 1)) (id + 1) (by omega)
    · rw [if_neg hlt]; simp

theorem chunkGo_nil_of_ge {μ : Type} (text : List Char) (meta : μ) (docId : String)
    (cs ov : Int) (start : Int) (h : (text.length : Int) ≤ start) :
    ∀ (fuel : Nat) (id : Nat), chunkGo text meta docId cs ov fuel start id = [] := by
  intro fuel id
  cases fuel with
  | zero => rfl
  | succ n => rw [chunkGo, if_neg (not_lt.mpr h)]

theorem chunkGo_fuel_stable {μ : Type} (text : List Char) (meta : μ) (docId : String)
    (cs ov : Int) :
    ∀ (f₁ f₂ : Nat) (start : Int) (id : Nat),
      (text.length : Int) ≤ start + (f₁ : Int) → (text.length : Int) ≤ start + (f₂ : Int) →
      chunkGo text meta docId cs ov f₁ start id = chunkGo text meta docId cs ov f₂ start id := by
  intro f₁
  induction f₁ with
  | zero =>
    intro f₂ start id h1 h2
    rw [chunkGo_nil_of_ge text meta docId cs ov start (by simpa using h1) 0 id,
      chunkGo_nil_of_ge text meta docId cs ov start (by simpa using h1) f₂ id]
  | succ n ihn =>
    intro f₂ start id h1 h2
    cases f₂ with
    | zero =>
      rw [chunkGo_nil_of_ge text meta docId cs ov start (by simpa using h2) (n + 1) id,
        chunkGo_nil_of_ge text meta docId cs ov start (by simpa using h2) 0 id]
    | succ m =>
      rw [chunkGo, chunkGo]
      by_cases hlt : start < (text.length : Int)
      · rw [if_pos hlt, if_pos hlt]
        by_cases hc : jsTrim (jsSlice text start (chunkWindowEnd text cs start)) = []
        · rw [if_pos hc, if_pos hc]
        · rw [if_neg hc, if_neg hc]
          congr 1
          by_cases hstop :
              (text.length : Int) ≤ max (chunkWindowEnd text cs start - ov) (start + 1)
          · rw [if_pos hstop, if_pos hstop]
          · rw [if_neg hstop, if_neg hstop]
            refine ihn m (max (chunkWindowEnd text cs start - ov) (start + 1)) (id + 1)
              (by push_cast at h1 ⊢; omega) (by push_cast at h2 ⊢; omega)
      · rw [if_neg hlt, if_neg hlt]

/-- The text of the C4 counterexample: `"a. "` followed by 47 letters.
With `chunkSize = 1`, the boundary-snap slice `text.slice(end - 50, …)`
has a negative start index, which JavaScript wraps to the end of the
string; the match found there drags the window end to a negative index,
which wraps again, so the first chunk swallows 2 characters while the next
chunk starts at offset 1. -/
def chunkCex4Text : List Char := 'a' :: '.' :: ' ' :: List.replicate 47 'b'

/-- **C4, counterexample.** With `chunkSize = 1 > overlap = 0` and a
non-empty text (all within the claim's stated parameter range), the chunks
produced by `chunkText` do *not* overlap their successors by at most
`overlap` characters: the first chunk is `"a."` at `start_char = 0`
(length 2) and the second starts at `start_char = 1`, an overlap of 1 > 0
characters. -/
theorem chunkText_overlap_counterexample :
    (chunkCex4Text ≠ [] ∧ (0 : Int) ≤ 0 ∧ (0 : Int) < 1) ∧
    ¬ List.Chain' (fun a b => a.start_char + (a.content.length : Int) ≤ b.start_char + 0)
        (chunkText chunkCex4Text () "doc" 1 0) := by
  have he : chunkText chunkCex4Text () "doc" 1 0 =
      [⟨['a', '.'], (), "doc", 0, 0⟩, ⟨['.'], (), "doc", 1, 1⟩] := by decide
  refine ⟨⟨by decide, by decide, by decide⟩, ?_⟩
  intro h
  rw [he, List.chain'_cons] at h
  exact absurd h.1 (by decide)

/-- **C4, amended.** For every non-empty text and `chunkSize > overlap ≥ 0`,
`chunkText` yields chunks with strictly increasing `start_char`, contiguous
`chunk_id` indices starting at 0, and never-empty content; the bound "every
non-final chunk overlaps its successor by at most `overlap` characters"
holds under the additional hypothesis `50 ≤ chunkSize` (for smaller
`chunkSize` the 50-character boundary look-behind wraps around via
JavaScript's negative slice indices and can produce a larger overlap, as
the counterexample shows). -/
theorem chunkText_order_ids_content_overlap {μ : Type} (text : List Char) (meta : μ)
    (docId : String) (cs ov : Int) (hov : 0 ≤ ov) (hcs : ov < cs) (hne : text ≠ []) :
    List.Chain' (fun a b => a.start_char < b.start_char) (chunkText text meta docId cs ov) ∧
    (chunkText text meta docId cs ov).map (fun c => c.chunk_id)
      = List.range (chunkText text meta docId cs ov).length ∧
    (∀ c ∈ chunkText text meta docId cs ov, c.content ≠ []) ∧
    (50 ≤ cs →
      List.Chain' (fun a b => a.start_char + (a.content.length : Int) ≤ b.start_char + ov)
        (chunkText text meta docId cs ov)) := by
  unfold chunkText
  by_cases ht : jsTrim text = []
  · rw [if_pos ht]
    exact ⟨by simp, by simp, by simp, fun _ => by simp⟩
  · rw [if_neg ht]
    obtain ⟨i1, i2, i3, i4, i5, i6⟩ :=
      chunkGo_invariants text meta docId cs ov text.length 0 0
    refine ⟨i4, ?_, i1, fun h50 => chunkGo_overlap_chain text meta docId cs ov h50
      text.length 0 0 le_rfl⟩
    rw [List.range_eq_range']
    exact i2

/-- Witness for `chunkText_order_ids_content_overlap` at a concrete input. -/
theorem chunkText_order_ids_content_overlap_witness :
    ((0 : Int) ≤ 10 ∧ (10 : Int) < 60 ∧ "Hello world. This is a test.".toList ≠ []) ∧
    (∀ c ∈ chunkText ("Hello world. This is a test.".toList) () "doc" 60 10,
      c.content ≠ []) :=
  ⟨⟨by decide, by decide, by decide⟩,
    (chunkText_order_ids_content_overlap ("Hello world. This is a test.".toList) () "doc"
      60 10 (by decide) (by decide) (by decide)).2.2.1⟩

/-- The text of the C5 counterexample: 120 copies of `A`. -/
def chunkCex5Text : List Char := List.replicate 120 'A'

set_option maxRecDepth 40000 in
/-- **C5, counterexample.** With `chunkSize = 60 > overlap = 50`, chunking a
120-character text produces 57 chunks: once the window reaches the end of
the text, `start = max(end - overlap, start + 1)` crawls forward one
character at a time (`end - overlap` stays at `len - overlap`), emitting
one chunk per position.  `ceil(120 / (60 - 50)) = 12`, so the claimed bound
"ceil(len / (chunkSize - overlap)) plus a small constant" fails even with a
generous constant of 40. -/
theorem chunkText_count_counterexample :
    (chunkText chunkCex5Text () "doc" 60 50).length = 57 ∧
    ¬ ((chunkText chunkCex5Text () "doc" 60 50).length ≤ (120 + (60 - 50) - 1) / (60 - 50) + 40) := by
  have he : (chunkText chunkCex5Text () "doc" 60 50).length = 57 := by decide
  exact ⟨he, by rw [he]; decide⟩

/-- **C5, amended.** For every text and `chunkSize > overlap ≥ 0`,
`chunkText` terminates: each chunk's `start_char` strictly exceeds the
previous one's, the number of chunks is at most `len(text)` (each loop
iteration strictly advances `start`), and the fuel-indexed loop is stable —
any fuel of at least `len(text)` computes the same chunk list, i.e. the
recursion always reaches its exit condition within `len(text)` steps.  The
claimed bound `ceil(len / (chunkSize - overlap))` plus a small constant
does not hold (see the counterexample). -/
theorem chunkText_terminates_and_count {μ : Type} (text : List Char) (meta : μ)
    (docId : String) (cs ov : Int) (hov : 0 ≤ ov) (hcs : ov < cs) :
    List.Chain' (fun a b => a.start_char < b.start_char) (chunkText text meta docId cs ov) ∧
    (chunkText text meta docId cs ov).length ≤ text.length ∧
    (∀ fuel : Nat, text.length ≤ fuel →
      chunkGo text meta docId cs ov fuel 0 0 = chunkGo text meta docId cs ov text.length 0 0) := by
  obtain ⟨i1, i2, i3, i4, i5, i6⟩ :=
    chunkGo_invariants text meta docId cs ov text.length 0 0
  refine ⟨?_, ?_, ?_⟩
  · unfold chunkText
    by_cases ht : jsTrim text = []
    · rw [if_pos ht]; simp
    · rw [if_neg ht]; exact i4
  · unfold chunkText
    by_cases ht : jsTrim text = []
    · rw [if_pos ht]; simp
    · rw [if_neg ht]; exact i6
  · intro fuel hfuel
    exact chunkGo_fuel_stable text meta docId cs ov fuel text.length 0 0
      (by push_cast; omega) (by push_cast; omega)

/-- Witness for `chunkText_terminates_and_count` at a concrete input
(the source's default parameters `chunkSize = 1000`, `overlap = 200`). -/
theorem chunkText_terminates_and_count_witness :
    ((0 : Int) ≤ 200 ∧ (200 : Int) < 1000) ∧
    (chunkText ("short example".toList) () "doc" 1000 200).length ≤
      ("short example".toList).length :=
  ⟨⟨by decide, by decide⟩,
    (chunkText_terminates_and_count ("short example".toList) () "doc" 1000 200
      (by decide) (by decide)).2.1⟩

/-! ## Batched embedding generation

`generateEmbeddingsBatch(chunks, batchSize)`: slice the chunk list into
batches, embed each batch with a concurrent `Promise.all`, and on batch
failure retry each chunk of that batch individually, substituting a
768-dimensional zero vector when the individual call also fails.  The
external `embeddingModel.embedContent` is modelled as a deterministic
oracle `embed : List Char → Option (List ℚ)` (`none` = the call rejects),
consulted identically by the batch attempt and the individual retry. -/

/-- The 768-dimensional zero vector substituted for a chunk whose
individual embedding call failed (`new Array(768).fill(0)`). -/
def zeroVector : List ℚ := List.replicate 768 0

/-- `Promise.all(batch.map(chunk => embedContent(chunk.content)))`: succeeds
with all values iff every chunk's call succeeds, otherwise rejects. -/
def batchEmbedAll {μ : Type} (embed : List Char → Option (List ℚ))
    (batch : List (Chunk μ)) : Option (List (List ℚ)) :=
  batch.mapM (fun c => embed c.content)

/-- The per-chunk fallback loop run when a batch has failed: each chunk of
the batch is retried individually, a failure contributing `zeroVector`. -/
def embedIndividually {μ : Type} (embed : List Char → Option (List ℚ)) :
    List (Chunk μ) → List (List ℚ)
  | [] => []
  | c :: rest =>
    (match embed c.content with
     | some v => v
     | none => zeroVector) :: embedIndividually embed rest

/-- One iteration of the batch loop body: try the whole batch, fall back to
individual embedding on failure. -/
def processBatch {μ : Type} (embed : List Char → Option (List ℚ))
    (batch : List (Chunk μ)) : List (List ℚ) :=
  match batchEmbedAll embed batch with
  | some vs => vs
  | none => embedIndividually embed batch

/-- The `for (let i = 0; i < chunks.length; i += batchSize)` loop.  The fuel
argument makes the definition structural; `chunks.length` steps always
suffice when `batchSize ≥ 1`. -/
def embedBatchesGo {μ : Type} (embed : List Char → Option (List ℚ))
    (batchSize : Nat) : Nat → List (Chunk μ) → List (List ℚ)
  | 0, _ => []
  | _ + 1, [] => []
  | fuel + 1, c :: rest =>
    processBatch embed ((c :: rest).take batchSize) ++
      embedBatchesGo embed batchSize fuel ((c :: rest).drop batchSize)

/-- `generateEmbeddingsBatch(chunks, batchSize)` (the ingestion pipeline
calls it with `batchSize = 5`; the declaration default is 10). -/
def generateEmbeddingsBatch {μ : Type} (embed : List Char → Option (List ℚ))
    (chunks : List (Chunk μ)) (batchSize : Nat) : List (List ℚ) :=
  embedBatchesGo embed batchSize chunks.length chunks

theorem mapM_eq_map_of_some {μ : Type} (embed : List Char → Option (List ℚ)) :
    ∀ (batch : List (Chunk μ)) (vs : List (List ℚ)),
      batch.mapM (fun c => embed c.content) = some vs →
      vs = batch.map (fun c => (embed c.content).getD zeroVector) := by
  intro batch
  induction batch with
  | nil =>
    intro vs h
    rw [List.mapM_nil] at h
    simp only [Option.pure_def, Option.some.injEq] at h
    simp [← h]
  | cons c rest ih =>
    intro vs h
    rw [List.mapM_cons] at h
    cases he : embed c.content with
    | none => rw [he] at h; simp at h
    | some v =>
      rw [he] at h
      cases hr : rest.mapM (fun c => embed c.content) with
      | none => rw [hr] at h; simp at h
      | some ws =>
        rw [hr] at h
        simp only [Option.bind_eq_bind, Option.some_bind, Option.pure_def,
          Option.some.injEq] at h
        subst h
        simp only [List.map_cons, he, Option.getD_some]
        rw [ih ws hr]

theorem embedIndividually_eq_map {μ : Type} (embed : List Char → Option (List ℚ)) :
    ∀ batch : List (Chunk μ),
      embedIndividually embed batch
        = batch.map (fun c => (embed c.content).getD zeroVector) := by
  intro batch
  induction batch with
  | nil => rfl
  | cons c rest ih =>
    rw [embedIndividually, ih]
    cases he : embed c.content <;> simp [he]

theorem processBatch_eq_map {μ : Type} (embed : List Char → Option (List ℚ))
    (batch : List (Chunk μ)) :
    processBatch embed batch
      = batch.map (fun c => (embed c.content).getD zeroVector) := by
  unfold processBatch batchEmbedAll
  cases h : batch.mapM (fun c => embed c.content) with
  | none => exact embedIndividually_eq_map embed batch
  | some vs => exact mapM_eq_map_of_some embed batch vs h

theorem embedBatchesGo_eq_map {μ : Type} (embed : List Char → Option (List ℚ))
    (batchSize : Nat) (hbs : 1 ≤ batchSize) :
    ∀ (fuel : Nat) (chunks : List (Chunk μ)), chunks.length ≤ fuel →
      embedBatchesGo embed batchSize fuel chunks
        = chunks.map (fun c => (embed c.content).getD zeroVector) := by
  intro fuel
  induction fuel with
  | zero =>
    intro chunks h
    rw [Nat.le_zero, List.length_eq_zero] at h
    subst h
    rfl
  | succ n ih =>
    intro chunks h
    cases chunks with
    | nil => rfl
    | cons c rest =>
      rw [embedBatchesGo, processBatch_eq_map,
        ih ((c :: rest).drop batchSize) (by simp [List.length_drop]; simp at h; omega),
        ← List.map_append, List.take_append_drop]

/-- **C3.** For every embedding oracle, every chunk list and every positive
batch size, `generateEmbeddingsBatch` returns one vector per input chunk,
in input order: position `i` holds the oracle's embedding of chunk `i`'s
content when that call succeeds (whether via the batch or the individual
retry after a batch failure), and the 768-dimensional zero vector exactly
when it fails — i.e. the result is the pointwise image of the input. -/
theorem generateEmbeddingsBatch_spec {μ : Type} (embed : List Char → Option (List ℚ))
    (chunks : List (Chunk μ)) (batchSize : Nat) (hbs : 1 ≤ batchSize) :
    (generateEmbeddingsBatch embed chunks batchSize).length = chunks.length ∧
    generateEmbeddingsBatch embed chunks batchSize
      = chunks.map (fun c => (embed c.content).getD zeroVector) := by
  have h := embedBatchesGo_eq_map embed batchSize hbs chunks.length chunks le_rfl
  exact ⟨by rw [generateEmbeddingsBatch, h, List.length_map], h⟩

/-- A chunk list and an oracle that fails exactly on the middle chunk's
content, used to witness `generateEmbeddingsBatch_spec`. -/
def embedWitnessChunks : List (Chunk Unit) :=
  [⟨"good one".toList, (), "doc", 0, 0⟩,
   ⟨"bad".toList, (), "doc", 1, 10⟩,
   ⟨"good two".toList, (), "doc", 2, 20⟩]

/-- The witness oracle: rejects `"bad"`, embeds everything else as `[1]`. -/
def embedWitnessOracle (s : List Char) : Option (List ℚ) :=
  if s = "bad".toList then none else some [1]

/-- Witness for `generateEmbeddingsBatch_spec`: with batch size 2 (so the
failing chunk shares a batch with a succeeding one), the output has one
vector per chunk and the zero vector appears exactly at the failing
position. -/
theorem generateEmbeddingsBatch_spec_witness :
    (1 : Nat) ≤ 2 ∧
    generateEmbeddingsBatch embedWitnessOracle embedWitnessChunks 2
      = [[1], zeroVector, [1]] :=
  ⟨by decide,
    by
      rw [(generateEmbeddingsBatch_spec embedWitnessOracle embedWitnessChunks 2
        (by decide)).2]
      rfl⟩

/-! ## The grounded-QA path

The QA route's `POST` handler after authentication, rate limiting and input
validation: normalize the collection name, query Pinecone (modelled as the
resulting match list), and either return the fixed insufficient-information
response (zero matches) or build the context, call the chat model and
return the answer with sources.  The chat-completion provider is an oracle
`chat : List Char → Option (List Char)` (`none` = the call throws); the
`llmCalled` flag records whether it was consulted. -/

/-- One Pinecone match as consumed by the QA route.  `content` is
`match.metadata?.content` (`none` = key absent); `score` is `match.score`
(`none` models `undefined`, defaulted by `|| 0`); `uploadedBy` is the
uploader recorded in the vector metadata at ingestion time — carried here
to state that the QA path never reads it. -/
structure QaMatch where
  content : Option (List Char)
  score : Option ℚ
  docId : String
  chunkIndex : Option Nat
  uploadedBy : String
deriving DecidableEq

/-- An entry of `relevantContent`. -/
structure QaChunk where
  content : List Char
  score : ℚ
  docId : String
  chunkIndex : Option Nat
deriving DecidableEq

/-- An entry of the returned `sources` array. -/
structure QaSource where
  docId : String
  relevanceScore : ℚ
  preview : List Char
deriving DecidableEq

/-- The QA route's response fields (plus the `llmCalled` instrumentation
flag; `processingTimeMs` is wall-clock time and is not modelled). -/
structure QaOutcome where
  answer : List Char
  used_collection : List Char
  sources : List QaSource
  llmCalled : Bool
deriving DecidableEq

/-- Stable insertion of `x` into a list sorted descending by `key`:
`x` goes before the first element with a strictly smaller key, as
JavaScript's stable `sort((a, b) => b.key - a.key)` arranges. -/
def jsSortInsert {α : Type} (key : α → ℚ) (x : α) : List α → List α
  | [] => [x]
  | y :: ys => if key y < key x then x :: y :: ys else y :: jsSortInsert key x ys

/-- JavaScript's stable `Array.prototype.sort` with the comparator
`(a, b) => key(b) - key(a)` (descending by `key`). -/
def jsSortDesc {α : Type} (key : α → ℚ) : List α → List α
  | [] => []
  | x :: xs => jsSortInsert key x (jsSortDesc key xs)

/-- `Array.prototype.join(sep)`. -/
def joinSep (sep : List Char) : List (List Char) → List Char
  | [] => []
  | [x] => x
  | x :: y :: rest => x ++ sep ++ joinSep sep (y :: rest)

/-- The fixed insufficient-information answer returned on zero matches. -/
def insufficientAnswer : List Char :=
  ("I couldn't find any relevant information in your documents to answer this " ++
   "question. Please try rephrasing your question or check if you've uploaded " ++
   "the relevant documents.").toList

/-- The degraded answer substituted when the chat-completion call throws. -/
def llmErrorAnswer : List Char :=
  "I encountered an error while generating the answer. Please try again.".toList

/-- The grounded prompt: template text with the question and the assembled
context concatenated in (the source interpolates them into a template
literal). -/
def qaPrompt (question contextText : List Char) : List Char :=
  ("You are a helpful legal assistant. Answer the user's question based on the " ++
   "provided document content. Be accurate, concise, and cite specific information " ++
   "from the documents when relevant.\n\nQuestion: ").toList ++ question ++
  "\n\nRelevant Document Content:\n".toList ++ contextText ++
  ("\n\nInstructions:\n- Answer based only on the provided content\n" ++
   "- If the content doesn't contain enough information to fully answer, say so clearly\n" ++
   "- Be professional and precise\n- Keep answers focused and actionable\n" ++
   "- Cite document references when possible\n\nAnswer:").toList

/-- `relevantContent`: keep the matches whose metadata has truthy content (a
missing key and the empty string are both falsy in JavaScript), extract
content/score/docId/chunkIndex, sort by score descending, take the top 10. -/
def qaRelevantContent (ms : List QaMatch) : List QaChunk :=
  (jsSortDesc (fun c => c.score)
    (ms.filterMap (fun m =>
      match m.content with
      | some (c :: cs) =>
        some { content := c :: cs, score := m.score.getD 0, docId := m.docId,
               chunkIndex := m.chunkIndex }
      | _ => none))).take 10

/-- The QA route's `POST` handler from the vector-store response onwards.
`userId` is the authenticated caller (used upstream only for rate limiting
and logging); `ms` is `queryResponse.matches || []`. -/
def qaAnswerPipeline (userId : String) (question rawCollectionName : List Char)
    (ms : List QaMatch) (chat : List Char → Option (List Char)) : QaOutcome :=
  let ns := normalizeQuery rawCollectionName
  if ms = [] then
    { answer := insufficientAnswer, used_collection := ns, sources := [],
      llmCalled := false }
  else
    let relevantContent := qaRelevantContent ms
    let contextText := joinSep "\n\n---\n\n".toList
      (relevantContent.map (fun c =>
        "[Document: ".toList ++ c.docId.toList ++ "]\n".toList ++ c.content))
    let prompt := qaPrompt question contextText
    let answer := match chat prompt with
      | some a => jsTrim a
      | none => llmErrorAnswer
    let sources := relevantContent.map (fun c =>
      { docId := c.docId, relevanceScore := c.score,
        preview := c.content.take 200 ++
          (if 200 < c.content.length then "...".toList else []) })
    { answer := answer, used_collection := ns, sources := sources, llmCalled := true }

/-- **C2.** For every authenticated, validated QA request whose vector query
returns zero ms, the pipeline returns exactly the fixed
insufficient-information answer with an empty sources list and never calls
the chat-completion provider, whatever the user, question, collection name
and chat oracle are. -/
theorem qa_zero_matches_guard (userId : String) (question rawCollectionName : List Char)
    (chat : List Char → Option (List Char)) :
    qaAnswerPipeline userId question rawCollectionName [] chat
      = { answer := insufficientAnswer,
          used_collection := normalizeQuery rawCollectionName,
          sources := [], llmCalled := false } := by
  rfl

/-- **C10.** The grounded-QA path applies no per-user ownership filter: the
outcome — including the assembled context inside the prompt sent to the
chat model, the answer and the returned sources list — is the same function
of (question, collection name, match list, chat oracle) for every
authenticated user, and rewriting the `uploadedBy` field of every match —
i.e. attributing the matched chunks to arbitrary other uploaders — leaves
the prompt, the answer and the sources unchanged. -/
theorem qa_user_independence (u₁ u₂ : String) (question rawCollectionName : List Char)
    (ms : List QaMatch) (chat : List Char → Option (List Char))
    (f : String → String) :
    qaAnswerPipeline u₁ question rawCollectionName ms chat
      = qaAnswerPipeline u₂ question rawCollectionName ms chat ∧
    qaAnswerPipeline u₁ question rawCollectionName
        (ms.map (fun m => { m with uploadedBy := f m.uploadedBy })) chat
      = qaAnswerPipeline u₁ question rawCollectionName ms chat := by
  constructor
  · rfl
  · unfold qaAnswerPipeline
    have hmap : (ms.map (fun m => { m with uploadedBy := f m.uploadedBy })) = []
        ↔ ms = [] := by
      simp
    by_cases hm : ms = []
    · rw [if_pos hm, if_pos (hmap.mpr hm)]
    · rw [if_neg hm, if_neg (fun h => hm (hmap.mp h))]
      have hrc : qaRelevantContent
          (ms.map (fun m => { m with uploadedBy := f m.uploadedBy }))
          = qaRelevantContent ms := by
        unfold qaRelevantContent
        rw [List.filterMap_map]
        rfl
      rw [hrc]

/-! ## The label endpoint

`POST /api/documents/labels`: after authentication, verify that the caller
owns the document (`findOne {docId, uploadedBy}`), build the MongoDB update
(`$addToSet`/`$pull`/`$set` for `add`/`remove`/`set`), run `updateOne` on
the same ownership-scoped filter, and report `"No changes made"` when
`modifiedCount` is zero.  The metadata store is modelled as a list of
document records; `updateOne` touches the first record matching the
filter, and `modifiedCount = 0` iff the computed label list equals the
stored one. -/

/-- A `documents`-collection record (the fields the modelled routes read). -/
structure MongoDocRec where
  docId : String
  fileName : String
  fileType : String
  fileUrl : String
  uploadedBy : String
  uploadedAt : Nat
  totalChunks : Nat
  totalCharacters : Nat
  labels : List String
deriving DecidableEq

/-- MongoDB `$addToSet` with `$each`: append, in order, each label not
already present (duplicates inside the request collapse too). -/
def addToSet (cur new : List String) : List String :=
  new.foldl (fun acc l => if l ∈ acc then acc else acc ++ [l]) cur

/-- MongoDB `$pull` with `$in`: remove every occurrence of any requested
label. -/
def pullLabels (cur rem : List String) : List String :=
  cur.filter (fun l => l ∉ rem)

/-- Dispatch on the request's `action` string; `none` models the
`"Invalid action"` rejection. -/
def applyLabelAction (action : String) (cur labels : List String) :
    Option (List String) :=
  if action = "add" then some (addToSet cur labels)
  else if action = "remove" then some (pullLabels cur labels)
  else if action = "set" then some labels
  else none

/-- The label endpoint's response. -/
inductive LabelsResponse
  | ok (docId : String) (fileName : String) (labels : List String)
  | notFound
  | noChanges
  | invalidAction
deriving DecidableEq

/-- `updateOne {docId, uploadedBy}`: replace the labels of the first record
matching the ownership-scoped filter. -/
def updateFirstLabels (userId docId : String) (newLabels : List String) :
    List MongoDocRec → List MongoDocRec
  | [] => []
  | d :: rest =>
    if d.docId == docId && d.uploadedBy == userId then
      { d with labels := newLabels } :: rest
    else d :: updateFirstLabels userId docId newLabels rest

/-- The `POST` handler of the label route, from the parsed request body
onwards: ownership check, action dispatch, update, and the final read-back
of the updated document. Returns the response and the resulting store. -/
def labelsPost (store : List MongoDocRec) (userId docId : String)
    (labels : List String) (action : String) : LabelsResponse × List MongoDocRec :=
  match store.find? (fun d => d.docId == docId && d.uploadedBy == userId) with
  | none => (.notFound, store)
  | some doc =>
    match applyLabelAction action doc.labels labels with
    | none => (.invalidAction, store)
    | some newLabels =>
      if newLabels = doc.labels then (.noChanges, store)
      else (.ok docId doc.fileName newLabels,
        updateFirstLabels userId docId newLabels store)

/-- Labels of the document `docId` owned by `userId` in `store`
(`[]` when absent), as the `GET` route would report them. -/
def labelsOf (store : List MongoDocRec) (userId docId : String) : List String :=
  match store.find? (fun d => d.docId == docId && d.uploadedBy == userId) with
  | some d => d.labels
  | none => []

theorem addToSet_nodup (new : List String) :
    ∀ cur : List String, cur.Nodup → (addToSet cur new).Nodup := by
  induction new with
  | nil => intro cur h; exact h
  | cons n rest ih =>
    intro cur h
    rw [addToSet, List.foldl_cons]
    by_cases hn : n ∈ cur
    · rw [if_pos hn]
      exact ih cur h
    · rw [if_neg hn]
      refine ih (cur ++ [n]) ?_
      simp [List.nodup_append, h, hn]

/-- The document record used in the concrete label scenarios of C9. -/
def labelsDemoDoc : MongoDocRec :=
  { docId := "d1", fileName := "contract.pdf", fileType := "application/pdf",
    fileUrl := "https://blob/doc", uploadedBy := "alice", uploadedAt := 0,
    totalChunks := 3, totalCharacters := 300, labels := ["x", "y"] }

/-- **C9.** Label operations: `add ["x"]` on a document labeled `["x","y"]`
leaves the label set `["x","y"]` (no duplicate is introduced — in fact
`$addToSet` keeps any duplicate-free label set duplicate-free); `remove
["x"]` yields `["y"]`; `set ["z"]` yields exactly `["z"]`; and any label
operation naming a document the caller does not own answers with the
not-found/denied response and leaves the store untouched. -/
theorem labels_endpoint_spec :
    (labelsPost [labelsDemoDoc] "alice" "d1" ["x"] "add"
        = (.noChanges, [labelsDemoDoc]) ∧
      labelsOf (labelsPost [labelsDemoDoc] "alice" "d1" ["x"] "add").2 "alice" "d1"
        = ["x", "y"]) ∧
    labelsOf (labelsPost [labelsDemoDoc] "alice" "d1" ["x"] "remove").2 "alice" "d1"
      = ["y"] ∧
    labelsOf (labelsPost [labelsDemoDoc] "alice" "d1" ["z"] "set").2 "alice" "d1"
      = ["z"] ∧
    (∀ (store : List MongoDocRec) (userId docId : String)
        (labels : List String) (action : String),
      store.find? (fun d => d.docId == docId && d.uploadedBy == userId) = none →
      labelsPost store userId docId labels action = (.notFound, store)) ∧
    (∀ cur new : List String, cur.Nodup → (addToSet cur new).Nodup) := by
  refine ⟨⟨by decide, by decide⟩, by decide, by decide, ?_, fun cur new h => addToSet_nodup new cur h⟩
  intro store userId docId labels action hfind
  unfold labelsPost
  rw [hfind]

/-- Witness for `labels_endpoint_spec`: operating on a document id the
caller does not own is rejected and mutates nothing, at a concrete store. -/
theorem labels_endpoint_spec_witness :
    ([labelsDemoDoc].find? (fun d => d.docId == "d2" && d.uploadedBy == "alice")
        = none) ∧
    labelsPost [labelsDemoDoc] "alice" "d2" ["z"] "set"
      = (.notFound, [labelsDemoDoc]) :=
  ⟨by decide,
    labels_endpoint_spec.2.2.2.1 [labelsDemoDoc] "alice" "d2" ["z"] "set" (by decide)⟩

/-! ## The OCR fallback's cleanup protocol

`ocrWithGemini(localPath, mimeType, retries = 2)`: a retry loop of
upload → poll-until-active → transcribe, wrapped in `try { … } finally {
if (uploadedFileName) deleteFile(uploadedFileName) }`.  The variable
`uploadedFileName` is overwritten by every successful upload, so the
`finally` block can only ever delete the most recent one.  Each attempt's
interaction with the external service is an oracle `OcrAttempt`. -/

/-- The external-service outcomes of one attempt of the OCR loop:
`uploadResult` is `fileManager.uploadFile` (`none` = throws, `some name` =
the remote file name); `fileActive` tells whether the readiness poll ends
in the `ACTIVE` state (a timeout leaves it `PROCESSING`, hence `false`);
`generateResult` is the transcription call. -/
structure OcrAttempt where
  uploadResult : Option String
  fileActive : Bool
  generateResult : Option (List Char)
deriving DecidableEq

/-- The `for (attempt = 0; attempt <= retries; attempt++)` loop.  `i` is
the attempt index, `remaining` the number of attempts left after this one
(`remaining = 0` means `attempt === retries`, where the `catch` rethrows);
`ufn` is the mutable `uploadedFileName`; `uploaded` logs every successful
upload. Returns (loop result, final `uploadedFileName`, upload log). -/
def ocrTryAll (att : Nat → OcrAttempt) :
    Nat → Nat → Option String → List String →
    Except Unit (List Char) × Option String × List String
  | _, 0, ufn, uploaded => (.error (), ufn, uploaded)
  | i, remaining + 1, ufn, uploaded =>
    match (att i).uploadResult with
    | none =>
      if remaining = 0 then (.error (), ufn, uploaded)
      else ocrTryAll att (i + 1) remaining ufn uploaded
    | some name =>
      if !(att i).fileActive then
        if remaining = 0 then (.error (), some name, uploaded ++ [name])
        else ocrTryAll att (i + 1) remaining (some name) (uploaded ++ [name])
      else
        match (att i).generateResult with
        | some text => (.ok text, some name, uploaded ++ [name])
        | none =>
          if remaining = 0 then (.error (), some name, uploaded ++ [name])
          else ocrTryAll att (i + 1) remaining (some name) (uploaded ++ [name])

deriving instance DecidableEq for Except

/-- The observable outcome of `ocrWithGemini`: the returned transcription
or propagated error, every remote upload made during the invocation, and
every remote deletion attempted by the `finally` block. -/
structure OcrOutcome where
  result : Except Unit (List Char)
  uploaded : List String
  deleted : List String
deriving DecidableEq

/-- `ocrWithGemini` with its `finally`-block cleanup: after the loop exits
(by return or by rethrow), delete `uploadedFileName` when it is set. -/
def ocrWithGemini (att : Nat → OcrAttempt) (retries : Nat) : OcrOutcome :=
  match ocrTryAll att 0 (retries + 1) none [] with
  | (res, some n, uploaded) => { result := res, uploaded := uploaded, deleted := [n] }
  | (res, none, uploaded) => { result := res, uploaded := uploaded, deleted := [] }

/-- The attempt oracle of the C8 counterexample: the first attempt uploads
`f0` and then times out in processing; the second uploads `f1` and
succeeds. -/
def ocrCexAttempts : Nat → OcrAttempt
  | 0 => { uploadResult := some "f0", fileActive := false, generateResult := none }
  | _ + 1 => { uploadResult := some "f1", fileActive := true,
               generateResult := some ("transcribed".toList) }

/-- **C8, counterexample.** With the source's default `retries = 2`, an
invocation whose first attempt uploads `f0` and fails after the upload and
whose second attempt uploads `f1` and succeeds deletes only `f1`: the
upload `f0` made by the earlier retry attempt is leaked even though the
invocation as a whole succeeds. -/
theorem ocr_cleanup_counterexample :
    (ocrWithGemini ocrCexAttempts 2).uploaded = ["f0", "f1"] ∧
    (ocrWithGemini ocrCexAttempts 2).deleted = ["f1"] ∧
    (ocrWithGemini ocrCexAttempts 2).result = .ok ("transcribed".toList) ∧
    "f0" ∈ (ocrWithGemini ocrCexAttempts 2).uploaded ∧
    "f0" ∉ (ocrWithGemini ocrCexAttempts 2).deleted := by
  refine ⟨by decide, by decide, by decide, by decide, by decide⟩

theorem ocrTryAll_last_upload (att : Nat → OcrAttempt) :
    ∀ (remaining i : Nat) (ufn : Option String) (uploaded : List String),
      ufn = uploaded.getLast? →
      (ocrTryAll att i remaining ufn uploaded).2.1
        = (ocrTryAll att i remaining ufn uploaded).2.2.getLast? := by
  intro remaining
  induction remaining with
  | zero => intro i ufn uploaded h; exact h
  | succ n ih =>
    intro i ufn uploaded h
    rw [ocrTryAll]
    split
    · split
      · exact h
      · exact ih (i + 1) ufn uploaded h
    · split
      · split
        · simp [List.getLast?_concat]
        · exact ih _ _ _ (by simp [List.getLast?_concat])
      · split
        · simp [List.getLast?_concat]
        · split
          · simp [List.getLast?_concat]
          · exact ih _ _ _ (by simp [List.getLast?_concat])

/-- **C8, amended.** On every invocation of the OCR fallback — success and
failure alike — the `finally` block deletes exactly the most recently
uploaded remote artifact (none when no upload ever succeeded); uploads made
by earlier retry attempts and superseded by a later attempt's upload are
not deleted. -/
theorem ocr_cleanup_last_only (att : Nat → OcrAttempt) (retries : Nat) :
    (ocrWithGemini att retries).deleted
      = ((ocrWithGemini att retries).uploaded.getLast?).toList := by
  unfold ocrWithGemini
  have h := ocrTryAll_last_upload att (retries + 1) 0 none [] (by simp)
  cases hres : ocrTryAll att 0 (retries + 1) none [] with
  | mk res rest =>
    cases rest with
    | mk ufn uploaded =>
      rw [hres] at h
      simp only at h
      cases ufn with
      | none => simp [← h]
      | some n => simp [← h]

/-! ## The ingestion pipeline's effect ordering

The upload route's `POST` handler after authentication, rate limiting and
schema validation: blob upload → text extraction → OCR fallback → chunking
→ batched embedding → `getDatabase` → `ensurePineconeIndex` → namespace
derivation → Mongo `insertOne` (Document) → Mongo `insertMany` (Chunks) →
batched Pinecone upsert → success response, with a `finally` block that
removes the temporary OCR file.  Each external call's outcome is a field
of `IngestWorld`; the batched upsert loop is collapsed into one
success/failure outcome (a mid-loop failure only strengthens the
counterexample).  `events` records each persistent side effect in the
order it is performed. -/

/-- The observable side effects of one ingestion request. -/
inductive IngestEvent
  | uploadBlob
  | writeTempFile
  | ocrCall
  | insertDocument
  | insertChunks
  | upsertVectors
  | deleteTempFile
deriving DecidableEq

/-- Outcomes of the external calls an ingestion request performs.
`extractResult`/`ocrResult` are `none` when the call throws (after its own
internal retries); `embed` is the embedding oracle consumed by
`generateEmbeddingsBatch`. -/
structure IngestWorld where
  cloudinaryOk : Bool
  extractResult : Option (List Char)
  ocrResult : Option (List Char)
  dbOk : Bool
  ensureIndexOk : Bool
  insertDocOk : Bool
  insertChunksOk : Bool
  upsertOk : Bool
  embed : List Char → Option (List ℚ)

/-- The success payload (`docId`, elapsed time and blob URL omitted:
identifiers and wall-clock values, not logic). -/
structure IngestSuccess where
  chunks : Nat
  characters : Nat
  pineconeNamespace : List Char
deriving DecidableEq

/-- Result and side-effect trace of one ingestion request. -/
structure IngestOutcome where
  result : Except (List Char) IngestSuccess
  events : List IngestEvent
deriving DecidableEq

/-- Steps 3–5 of the handler, shared by the direct-extraction and OCR
paths: the non-blank check, chunking (source defaults `1000`/`200`),
embedding, and the store/index writes in source order: `insertOne` on
`documents`, `insertMany` on `chunks`, then the Pinecone upsert. -/
def ingestIndexAndPersist (w : IngestWorld) (caseName : Option (List Char))
    (docId : String) (fullText : List Char) (ev : List IngestEvent) :
    Except (List Char) IngestSuccess × List IngestEvent :=
  if jsTrim fullText = [] then
    (.error "Failed to extract any text from document".toList, ev)
  else
    let chunks := chunkText fullText () docId 1000 200
    if chunks = [] then
      (.error "No valid chunks generated from document".toList, ev)
    else
      let _embeddings := generateEmbeddingsBatch w.embed chunks 5
      if !w.dbOk then (.error "database connection failed".toList, ev)
      else if !w.ensureIndexOk then
        (.error "failed to ensure Pinecone index".toList, ev)
      else
        let ns := normalizeIngest (caseName.getD ("default-case".toList))
        if !w.insertDocOk then (.error "insertOne failed".toList, ev)
        else if !w.insertChunksOk then
          (.error "insertMany failed".toList, ev ++ [.insertDocument])
        else if !w.upsertOk then
          (.error "Pinecone upsert failed".toList, ev ++ [.insertDocument, .insertChunks])
        else
          (.ok { chunks := chunks.length, characters := fullText.length,
                 pineconeNamespace := ns },
           ev ++ [.insertDocument, .insertChunks, .upsertVectors])

/-- Steps 1–2 of the handler: blob upload, extraction, and the OCR
fallback taken when the extracted text trims to fewer than 100 characters
(`!fullText || fullText.trim().length < 100`). Also returns whether a
temporary file was written (for the `finally` cleanup). -/
def ingestCore (w : IngestWorld) (caseName : Option (List Char)) (docId : String) :
    (Except (List Char) IngestSuccess × List IngestEvent) × Bool :=
  if !w.cloudinaryOk then ((.error "File upload failed".toList, []), false)
  else
    match w.extractResult with
    | none => ((.error "text extraction failed".toList, [.uploadBlob]), false)
    | some extracted =>
      if (jsTrim extracted).length < 100 then
        match w.ocrResult with
        | none =>
          ((.error "OCR failed after all retries".toList,
            [.uploadBlob, .writeTempFile, .ocrCall]), true)
        | some fullText =>
          (ingestIndexAndPersist w caseName docId fullText
            [.uploadBlob, .writeTempFile, .ocrCall], true)
      else
        (ingestIndexAndPersist w caseName docId extracted [.uploadBlob], false)

/-- The whole `POST` handler: run the pipeline, then the `finally` block
deletes the temporary file whenever one was written. -/
def ingestPipeline (w : IngestWorld) (caseName : Option (List Char))
    (docId : String) : IngestOutcome :=
  { result := (ingestCore w caseName docId).1.1,
    events := (ingestCore w caseName docId).1.2 ++
      (if (ingestCore w caseName docId).2 then [.deleteTempFile] else []) }

/-- The world of the C1 counterexample: every stage succeeds except the
Pinecone upsert. -/
def ingestCexWorld : IngestWorld :=
  { cloudinaryOk := true, extractResult := some ("short".toList),
    ocrResult := some ("hello world".toList), dbOk := true, ensureIndexOk := true,
    insertDocOk := true, insertChunksOk := true, upsertOk := false,
    embed := fun _ => some [1] }

/-- **C1, counterexample.** In a run where embedding, index-ensure and both
metadata-store inserts succeed but the vector upsert into the target
namespace fails, the Document and Chunk records have already been written:
the handler inserts into MongoDB *before* upserting into Pinecone, so a
Document record exists although the upsert never succeeded and the caller
receives an error. -/
theorem ingest_write_order_counterexample :
    IngestEvent.insertDocument ∈ (ingestPipeline ingestCexWorld none "doc").events ∧
    IngestEvent.insertChunks ∈ (ingestPipeline ingestCexWorld none "doc").events ∧
    IngestEvent.upsertVectors ∉ (ingestPipeline ingestCexWorld none "doc").events ∧
    (ingestPipeline ingestCexWorld none "doc").result
      = .error ("Pinecone upsert failed".toList) := by
  refine ⟨by decide, by decide, by decide, by decide⟩

/-- **C1, amended.** The Document and Chunk records are written after
embedding and index-ensure succeed but *before* the vector upsert: any
upsert activity presupposes that the Document record was already inserted;
a successful response implies both records were written and the upsert
succeeded; and a failure of the blob upload, extraction, OCR, chunking,
database connection, index-ensure or the `insertOne` itself creates no
Document record — but a failing upsert leaves the Document and Chunk
records persisted (no all-or-nothing guarantee at that boundary). -/
theorem ingestIndexAndPersist_spec (w : IngestWorld) (caseName : Option (List Char))
    (docId : String) (fullText : List Char) (ev : List IngestEvent)
    (h₁ : IngestEvent.insertDocument ∉ ev) (h₂ : IngestEvent.upsertVectors ∉ ev) :
    (IngestEvent.upsertVectors ∈ (ingestIndexAndPersist w caseName docId fullText ev).2 →
      IngestEvent.insertDocument ∈ (ingestIndexAndPersist w caseName docId fullText ev).2 ∧
      IngestEvent.insertChunks ∈ (ingestIndexAndPersist w caseName docId fullText ev).2) ∧
    ((ingestIndexAndPersist w caseName docId fullText ev).1.isOk = true →
      IngestEvent.insertDocument ∈ (ingestIndexAndPersist w caseName docId fullText ev).2 ∧
      IngestEvent.upsertVectors ∈ (ingestIndexAndPersist w caseName docId fullText ev).2) ∧
    (IngestEvent.insertDocument ∈ (ingestIndexAndPersist w caseName docId fullText ev).2 →
      w.dbOk = true ∧ w.ensureIndexOk = true ∧ w.insertDocOk = true) := by
  unfold ingestIndexAndPersist
  repeat' split
  all_goals try simp_all [Except.isOk, Except.toBool]
  all_goals repeat' split
  all_goals simp_all [Except.isOk, Except.toBool]

theorem ingestCore_spec (w : IngestWorld) (caseName : Option (List Char))
    (docId : String) :
    (IngestEvent.upsertVectors ∈ (ingestCore w caseName docId).1.2 →
      IngestEvent.insertDocument ∈ (ingestCore w caseName docId).1.2 ∧
      IngestEvent.insertChunks ∈ (ingestCore w caseName docId).1.2) ∧
    ((ingestCore w caseName docId).1.1.isOk = true →
      IngestEvent.insertDocument ∈ (ingestCore w caseName docId).1.2 ∧
      IngestEvent.upsertVectors ∈ (ingestCore w caseName docId).1.2) ∧
    (IngestEvent.insertDocument ∈ (ingestCore w caseName docId).1.2 →
      w.cloudinaryOk = true ∧ w.dbOk = true ∧ w.ensureIndexOk = true ∧
      w.insertDocOk = true) := by
  unfold ingestCore
  split
  · simp [Except.isOk, Except.toBool]
  · rename_i hc
    have hcl : w.cloudinaryOk = true := by simp_all
    split
    · simp [Except.isOk, Except.toBool]
    · rename_i extracted hex
      split
      · split
        · simp [Except.isOk, Except.toBool]
        · rename_i fullText hocr
          have h := ingestIndexAndPersist_spec w caseName docId fullText
            [.uploadBlob, .writeTempFile, .ocrCall] (by decide) (by decide)
          exact ⟨h.1, h.2.1, fun hm => ⟨hcl, h.2.2 hm⟩⟩
      · have h := ingestIndexAndPersist_spec w caseName docId extracted
          [.uploadBlob] (by decide) (by decide)
        exact ⟨h.1, h.2.1, fun hm => ⟨hcl, h.2.2 hm⟩⟩

theorem ingest_events_not_cleanup (w : IngestWorld) (caseName : Option (List Char))
    (docId : String) (x : IngestEvent) (hx : x ≠ IngestEvent.deleteTempFile) :
    x ∈ (ingestPipeline w caseName docId).events ↔
      x ∈ (ingestCore w caseName docId).1.2 := by
  unfold ingestPipeline
  simp only [List.mem_append]
  constructor
  · rintro (h | h)
    · exact h
    · exfalso
      revert h
      split
      · intro h
        rw [List.mem_singleton] at h
        exact hx h
      · intro h
        exact absurd h (List.not_mem_nil x)
  · exact Or.inl

/-- **C1, amended** (see the doc comment above the counterexample): the
metadata-store writes precede the vector upsert; any upsert activity
presupposes the Document and Chunk records were already written; a
successful response implies both records were written and the upsert
succeeded; and a Document record is only ever created when the blob
upload, the database connection, the index-ensure step and the `insertOne`
all succeeded — an upsert failure, however, leaves the records persisted. -/
theorem ingest_write_order (w : IngestWorld) (caseName : Option (List Char))
    (docId : String) :
    (IngestEvent.upsertVectors ∈ (ingestPipeline w caseName docId).events →
      IngestEvent.insertDocument ∈ (ingestPipeline w caseName docId).events ∧
      IngestEvent.insertChunks ∈ (ingestPipeline w caseName docId).events) ∧
    ((ingestPipeline w caseName docId).result.isOk = true →
      IngestEvent.insertDocument ∈ (ingestPipeline w caseName docId).events ∧
      IngestEvent.upsertVectors ∈ (ingestPipeline w caseName docId).events) ∧
    (IngestEvent.insertDocument ∈ (ingestPipeline w caseName docId).events →
      w.cloudinaryOk = true ∧ w.dbOk = true ∧ w.ensureIndexOk = true ∧
      w.insertDocOk = true) := by
  have hup := ingest_events_not_cleanup w caseName docId .upsertVectors (by decide)
  have hdoc := ingest_events_not_cleanup w caseName docId .insertDocument (by decide)
  have hch := ingest_events_not_cleanup w caseName docId .insertChunks (by decide)
  have hres : (ingestPipeline w caseName docId).result = (ingestCore w caseName docId).1.1 :=
    rfl
  obtain ⟨s1, s2, s3⟩ := ingestCore_spec w caseName docId
  refine ⟨?_, ?_, ?_⟩
  · intro h
    obtain ⟨ha, hb⟩ := s1 (hup.mp h)
    exact ⟨hdoc.mpr ha, hch.mpr hb⟩
  · intro h
    rw [hres] at h
    obtain ⟨ha, hb⟩ := s2 h
    exact ⟨hdoc.mpr ha, hup.mpr hb⟩
  · intro h
    exact s3 (hdoc.mp h)

/-- Witness for `ingest_write_order`: in a world where the index-ensure
step fails, no Document record is created. -/
def ingestNoIndexWorld : IngestWorld :=
  { ingestCexWorld with ensureIndexOk := false, upsertOk := true }

theorem ingest_write_order_witness :
    IngestEvent.insertDocument ∉ (ingestPipeline ingestNoIndexWorld none "doc").events ∧
    (ingestPipeline ingestNoIndexWorld none "doc").result.isOk = false :=
  ⟨fun hmem =>
    by simpa [ingestNoIndexWorld, ingestCexWorld] using
      ((ingest_write_order ingestNoIndexWorld none "doc").2.2 hmem).2.2.1,
   by decide⟩

/-! ## Document search: grouping, aggregation, ranking

The search route's `POST` handler between the vector query and the
response: group the matches by `metadata.docId` in a `Map` (insertion
order; matches without a `docId` are skipped), sum the scores and collect
the chunks per document, compute each document's relevance as the average
score (`data.score / data.chunks.length`), sort descending by that
aggregate with JavaScript's stable sort, keep the top 10, and finally keep
only the documents the requesting user owns in the metadata store. -/

/-- One Pinecone match as consumed by the search route. -/
structure SearchMatch where
  docId : Option String
  score : Option ℚ
  content : Option (List Char)
deriving DecidableEq

instance : Inhabited SearchMatch := ⟨⟨none, none, none⟩⟩

/-- One value of the `docScores` map: summed score, collected chunks,
chunk-hit count. -/
structure DocGroup where
  docId : String
  score : ℚ
  chunks : List SearchMatch
  count : Nat
deriving DecidableEq

/-- `docScores.set(docId, existing ∪ match)`: a JavaScript `Map` keeps
insertion order and updates an existing key in place, which on an
association list means updating the first (unique) entry or appending. -/
def upsertGroup : List DocGroup → String → SearchMatch → List DocGroup
  | [], d, m => [{ docId := d, score := m.score.getD 0, chunks := [m], count := 1 }]
  | g :: gs, d, m =>
    if g.docId == d then
      { docId := g.docId, score := g.score + m.score.getD 0,
        chunks := g.chunks ++ [m], count := g.count + 1 } :: gs
    else g :: upsertGroup gs d m

/-- The `for (const match of matches)` grouping loop; a match whose
metadata lacks a `docId` is skipped (`if (!docId) continue`). -/
def groupMatches (ms : List SearchMatch) : List DocGroup :=
  ms.foldl (fun acc m =>
    match m.docId with
    | none => acc
    | some d => upsertGroup acc d m) []

/-- One entry of `sortedDocs`. -/
structure ScoredDoc where
  docId : String
  relevanceScore : ℚ
  chunkCount : Nat
  bestChunk : SearchMatch
deriving DecidableEq

/-- `sortedDocs`: per-document average score
(`data.score / data.chunks.length`), the first collected chunk as
`bestChunk`, stable sort descending by `relevanceScore`, top 10. -/
def searchSortedDocs (ms : List SearchMatch) : List ScoredDoc :=
  (jsSortDesc (fun d => d.relevanceScore)
    ((groupMatches ms).map (fun g =>
      { docId := g.docId, relevanceScore := g.score / (g.chunks.length : ℚ),
        chunkCount := g.count, bestChunk := g.chunks.headI }))).take 10

/-- One entry of the search response's `documents` array (metadata-store
fields plus the aggregation results). -/
structure SearchResultEntry where
  docId : String
  fileName : String
  fileUrl : String
  relevanceScore : ℚ
  chunkCount : Nat
  previewText : List Char
  labels : List String
deriving DecidableEq

/-- The response assembly: fetch the caller's own documents from the
metadata store (`{docId: {$in: docIds}, uploadedBy: user.userId}`), drop
ranked documents the caller does not own (`if (!mongoDoc) return null` +
`filter(Boolean)`), and attach a preview of the best chunk.  (When the
best chunk's content is absent, JavaScript computes
`undefined + "..." = "undefined..."`, which `|| ""` does not replace —
reproduced faithfully here.) -/
def searchResults (store : List MongoDocRec) (userId : String)
    (ms : List SearchMatch) : List SearchResultEntry :=
  (searchSortedDocs ms).filterMap (fun dd =>
    match (store.filter (fun md => md.uploadedBy == userId)).find?
        (fun md => md.docId == dd.docId) with
    | none => none
    | some md => some
      { docId := dd.docId, fileName := md.fileName, fileUrl := md.fileUrl,
        relevanceScore := dd.relevanceScore, chunkCount := dd.chunkCount,
        previewText := match dd.bestChunk.content with
          | some c => c.take 300 ++ "...".toList
          | none => "undefined...".toList,
        labels := md.labels })

/-! ### Sorting lemmas -/

theorem jsSortInsert_perm {α : Type} (key : α → ℚ) (x : α) :
    ∀ l : List α, List.Perm (jsSortInsert key x l) (x :: l) := by
  intro l
  induction l with
  | nil => simp [jsSortInsert]
  | cons y ys ih =>
    rw [jsSortInsert]
    by_cases h : key y < key x
    · rw [if_pos h]
    · rw [if_neg h]
      exact List.Perm.trans (List.Perm.cons y ih) (List.Perm.swap x y ys)

theorem jsSortDesc_perm {α : Type} (key : α → ℚ) :
    ∀ l : List α, List.Perm (jsSortDesc key l) l := by
  intro l
  induction l with
  | nil => simp [jsSortDesc]
  | cons y ys ih =>
    rw [jsSortDesc]
    exact List.Perm.trans (jsSortInsert_perm key y (jsSortDesc key ys))
      (List.Perm.cons y ih)

theorem jsSortInsert_pairwise {α : Type} (key : α → ℚ) (x : α) :
    ∀ l : List α, List.Pairwise (fun a b => key b ≤ key a) l →
      List.Pairwise (fun a b => key b ≤ key a) (jsSortInsert key x l) := by
  intro l
  induction l with
  | nil => intro _; simp [jsSortInsert]
  | cons y ys ih =>
    intro h
    rw [List.pairwise_cons] at h
    rw [jsSortInsert]
    by_cases hk : key y < key x
    · rw [if_pos hk]
      rw [List.pairwise_cons]
      constructor
      · intro z hz
        rw [List.mem_cons] at hz
        rcases hz with hz | hz
        · subst hz; exact le_of_lt hk
        · exact le_trans (h.1 z hz) (le_of_lt hk)
      · rw [List.pairwise_cons]
        exact h
    · rw [if_neg hk]
      rw [List.pairwise_cons]
      constructor
      · intro z hz
        have := (jsSortInsert_perm key x ys).mem_iff.mp hz
        rw [List.mem_cons] at this
        rcases this with hz' | hz'
        · subst hz'; exact not_lt.mp hk
        · exact h.1 z hz'
      · exact ih h.2

theorem jsSortDesc_pairwise {α : Type} (key : α → ℚ) :
    ∀ l : List α, List.Pairwise (fun a b => key b ≤ key a) (jsSortDesc key l) := by
  intro l
  induction l with
  | nil => simp [jsSortDesc]
  | cons y ys ih =>
    rw [jsSortDesc]
    exact jsSortInsert_pairwise key y (jsSortDesc key ys) ih

/-! ### Grouping lemmas -/

/-- The matches contributing to document `d`. -/
def relevantFor (ms : List SearchMatch) (d : String) : List SearchMatch :=
  ms.filter (fun m => m.docId == some d)

theorem find?_upsertGroup (d0 : String) (m : SearchMatch) :
    ∀ (acc : List DocGroup) (d : String),
      (upsertGroup acc d0 m).find? (fun g => g.docId == d)
        = if d = d0 then
            some (match acc.find? (fun g => g.docId == d0) with
              | some g => { docId := g.docId, score := g.score + m.score.getD 0,
                            chunks := g.chunks ++ [m], count := g.count + 1 }
              | none => { docId := d0, score := m.score.getD 0,
                          chunks := [m], count := 1 })
          else acc.find? (fun g => g.docId == d) := by
  intro acc
  induction acc with
  | nil =>
    intro d
    by_cases h : d = d0
    · subst h
      rw [upsertGroup, if_pos rfl, List.find?_nil,
        List.find?_cons_of_pos _ (by simp)]
    · rw [upsertGroup, if_neg h, List.find?_nil,
        List.find?_cons_of_neg _ (by simpa using fun hc => h hc.symm),
        List.find?_nil]
  | cons g gs ih =>
    intro d
    rw [upsertGroup]
    by_cases hg : g.docId = d0
    · rw [if_pos (by simpa using hg)]
      by_cases hd : d = d0
      · subst hd
        rw [List.find?_cons_of_pos _ (by simpa using hg),
          List.find?_cons_of_pos _ (by simpa using hg), if_pos rfl]
      · have hgnd : ¬ (g.docId == d) = true := by
          simp only [beq_iff_eq, hg]
          exact fun hc => hd hc.symm
        rw [if_neg hd, List.find?_cons_of_neg gs hgnd,
          List.find?_cons_of_neg gs hgnd]
    · rw [if_neg (by simpa using hg)]
      by_cases hgd : g.docId = d
      · have hd : d ≠ d0 := fun h => hg (hgd.trans h)
        rw [if_neg hd, List.find?_cons_of_pos _ (by simpa using hgd),
          List.find?_cons_of_pos _ (by simpa using hgd)]
      · rw [List.find?_cons_of_neg _ (by simpa using hgd), ih d]
        by_cases hd : d = d0
        · rw [if_pos hd, if_pos hd,
            List.find?_cons_of_neg _ (by simpa using hg)]
        · rw [if_neg hd, if_neg hd,
            List.find?_cons_of_neg _ (by simpa using hgd)]

theorem groupMatches_append_singleton (ms : List SearchMatch) (m : SearchMatch) :
    groupMatches (ms ++ [m])
      = match m.docId with
        | none => groupMatches ms
        | some d => upsertGroup (groupMatches ms) d m := by
  unfold groupMatches
  rw [List.foldl_append]
  rfl

theorem groupMatches_find? (d : String) :
    ∀ ms : List SearchMatch,
      (groupMatches ms).find? (fun g => g.docId == d)
        = if relevantFor ms d = [] then none
          else some { docId := d,
                      score := ((relevantFor ms d).map (fun m => m.score.getD 0)).sum,
                      chunks := relevantFor ms d,
                      count := (relevantFor ms d).length } := by
  intro ms
  induction ms using List.reverseRecOn with
  | nil => simp [groupMatches, relevantFor]
  | append_singleton ms m ih =>
    have hrel : relevantFor (ms ++ [m]) d
        = relevantFor ms d ++ (if m.docId == some d then [m] else []) := by
      unfold relevantFor
      rw [List.filter_append, List.filter_singleton]
      simp [Bool.cond_eq_ite]
    rw [groupMatches_append_singleton]
    cases hm : m.docId with
    | none =>
      have : (m.docId == some d) = false := by rw [hm]; rfl
      rw [hrel, this]
      simpa using ih
    | some d0 =>
      rw [find?_upsertGroup d0 m (groupMatches ms) d]
      by_cases hd : d = d0
      · subst hd
        have hpm : (m.docId == some d) = true := by rw [hm]; simp
        rw [if_pos rfl, ih, hrel, hpm]
        by_cases hnil : relevantFor ms d = []
        · rw [if_pos hnil, hnil]
          simp
        · rw [if_neg hnil, if_neg (by simp)]
          simp
      · have hpm : (m.docId == some d) = false := by
          rw [hm]
          simpa using fun hc => hd hc.symm
        rw [if_neg hd, ih, hrel]
        simp [hpm]

theorem upsertGroup_keys (d0 : String) (m : SearchMatch) :
    ∀ acc : List DocGroup,
      (upsertGroup acc d0 m).map (fun g => g.docId)
        = if (acc.find? (fun g => g.docId == d0)).isSome
          then acc.map (fun g => g.docId)
          else acc.map (fun g => g.docId) ++ [d0] := by
  intro acc
  induction acc with
  | nil => simp [upsertGroup]
  | cons g gs ih =>
    rw [upsertGroup]
    by_cases hg : g.docId = d0
    · rw [if_pos (beq_iff_eq.mpr hg)]
      rw [List.find?_cons_of_pos _ (by simpa using hg)]
      simp
    · rw [if_neg (by simpa using hg)]
      rw [List.find?_cons_of_neg _ (by simpa using hg)]
      simp only [List.map_cons, ih]
      by_cases hs : (gs.find? (fun g => g.docId == d0)).isSome
      · rw [if_pos hs, if_pos hs]
      · rw [if_neg hs, if_neg hs]
        simp

theorem groupMatches_keys_nodup :
    ∀ ms : List SearchMatch, ((groupMatches ms).map (fun g => g.docId)).Nodup := by
  intro ms
  induction ms using List.reverseRecOn with
  | nil => simp [groupMatches]
  | append_singleton ms m ih =>
    rw [groupMatches_append_singleton]
    cases hm : m.docId with
    | none => exact ih
    | some d0 =>
      rw [upsertGroup_keys]
      by_cases hs : ((groupMatches ms).find? (fun g => g.docId == d0)).isSome
      · rw [if_pos hs]; exact ih
      · rw [if_neg hs]
        have hnone : (groupMatches ms).find? (fun g => g.docId == d0) = none := by
          cases h : (groupMatches ms).find? (fun g => g.docId == d0) with
          | none => rfl
          | some g => rw [h] at hs; simp at hs
        have hnotin : d0 ∉ (groupMatches ms).map (fun g => g.docId) := by
          intro hmem
          obtain ⟨g, hg, hgd⟩ := List.mem_map.mp hmem
          have := List.find?_eq_none.mp hnone g hg
          simp [hgd] at this
        simp [List.nodup_append, ih, hnotin]

theorem find?_eq_of_mem_nodup :
    ∀ (gs : List DocGroup), ((gs.map (fun g => g.docId)).Nodup) →
      ∀ g ∈ gs, gs.find? (fun x => x.docId == g.docId) = some g := by
  intro gs
  induction gs with
  | nil => intro _ g hg; exact absurd hg (List.not_mem_nil g)
  | cons h t ih =>
    intro hnd g hg
    rw [List.map_cons, List.nodup_cons] at hnd
    rcases List.mem_cons.mp hg with hg | hg
    · subst hg
      rw [List.find?_cons_of_pos _ (by simp)]
    · have hne : h.docId ≠ g.docId := by
        intro he
        exact hnd.1 (he ▸ List.mem_map.mpr ⟨g, hg, rfl⟩)
      rw [List.find?_cons_of_neg _ (by simpa using hne)]
      exact ih hnd.2 g hg

/-- **C7.** For every document-search request with at least one vector
match: the ranked documents are grouped by document id (the listed ids are
pairwise distinct); each ranked document's aggregate relevance is the
average of its matching chunks' scores — the sum of the scores of the
matches carrying its document id divided by their number — and its
chunk-hit count is that number; the ranking is sorted by aggregate
relevance in descending order; and at most 10 documents survive the
ranking and at most 10 are returned after the ownership filter. -/
theorem search_doc_aggregation (ms : List SearchMatch) (store : List MongoDocRec)
    (userId : String) (hne : ms ≠ []) :
    (∀ dd ∈ searchSortedDocs ms,
      relevantFor ms dd.docId ≠ [] ∧
      dd.relevanceScore
        = ((relevantFor ms dd.docId).map (fun m => m.score.getD 0)).sum
            / ((relevantFor ms dd.docId).length : ℚ) ∧
      dd.chunkCount = (relevantFor ms dd.docId).length) ∧
    ((searchSortedDocs ms).map (fun d => d.docId)).Nodup ∧
    List.Pairwise (fun a b => b.relevanceScore ≤ a.relevanceScore)
      (searchSortedDocs ms) ∧
    (searchSortedDocs ms).length ≤ 10 ∧
    (searchResults store userId ms).length ≤ 10 := by
  have hnd := groupMatches_keys_nodup ms
  have hlen10 : (searchSortedDocs ms).length ≤ 10 := by
    unfold searchSortedDocs
    rw [List.length_take]
    omega
  refine ⟨?_, ?_, ?_, hlen10, ?_⟩
  · intro dd hdd
    have hdd1 : dd ∈ jsSortDesc (fun d => d.relevanceScore)
        ((groupMatches ms).map (fun g =>
          { docId := g.docId, relevanceScore := g.score / (g.chunks.length : ℚ),
            chunkCount := g.count, bestChunk := g.chunks.headI })) :=
      List.mem_of_mem_take hdd
    have hdd2 := (jsSortDesc_perm (fun d : ScoredDoc => d.relevanceScore) _).mem_iff.mp hdd1
    obtain ⟨g, hg, hfg⟩ := List.mem_map.mp hdd2
    have hfind := find?_eq_of_mem_nodup (groupMatches ms) hnd g hg
    rw [groupMatches_find? g.docId ms] at hfind
    by_cases hrel : relevantFor ms g.docId = []
    · rw [if_pos hrel] at hfind
      exact absurd hfind (by simp)
    · rw [if_neg hrel] at hfind
      have hgeq := Option.some.inj hfind
      have hdocId : dd.docId = g.docId := by rw [← hfg]
      have hscore : g.score = ((relevantFor ms g.docId).map (fun m => m.score.getD 0)).sum := by
        rw [← hgeq]
      have hchunks : g.chunks = relevantFor ms g.docId := by rw [← hgeq]
      have hcount : g.count = (relevantFor ms g.docId).length := by rw [← hgeq]
      refine ⟨hdocId ▸ hrel, ?_, ?_⟩
      · rw [hdocId, ← hfg]
        simp only
        rw [hscore, hchunks]
      · rw [hdocId, ← hfg]
        simp only
        rw [hcount]
  · unfold searchSortedDocs
    have hperm : List.Perm
        ((jsSortDesc (fun d : ScoredDoc => d.relevanceScore)
          ((groupMatches ms).map (fun g =>
            { docId := g.docId, relevanceScore := g.score / (g.chunks.length : ℚ),
              chunkCount := g.count, bestChunk := g.chunks.headI }))).map (fun d => d.docId))
        (((groupMatches ms).map (fun g =>
            ({ docId := g.docId, relevanceScore := g.score / (g.chunks.length : ℚ),
               chunkCount := g.count, bestChunk := g.chunks.headI } : ScoredDoc))).map
          (fun d => d.docId)) :=
      (jsSortDesc_perm (fun d : ScoredDoc => d.relevanceScore) _).map (fun d => d.docId)
    have hnodup : ((jsSortDesc (fun d : ScoredDoc => d.relevanceScore)
        ((groupMatches ms).map (fun g =>
          { docId := g.docId, relevanceScore := g.score / (g.chunks.length : ℚ),
            chunkCount := g.count, bestChunk := g.chunks.headI }))).map
        (fun d => d.docId)).Nodup := by
      rw [hperm.nodup_iff, List.map_map]
      exact hnd
    exact hnodup.sublist ((List.take_sublist 10 _).map (fun d : ScoredDoc => d.docId))
  · unfold searchSortedDocs
    exact List.Pairwise.sublist (List.take_sublist 10 _)
      (jsSortDesc_pairwise (fun d : ScoredDoc => d.relevanceScore) _)
  · exact le_trans (List.length_filterMap_le _ _) hlen10

/-- The match list used to witness `search_doc_aggregation`: two matches
for document `d1`, one for `d2`. -/
def searchWitnessMatches : List SearchMatch :=
  [{ docId := some "d1", score := some 1, content := some ("alpha".toList) },
   { docId := some "d1", score := some (1 / 2), content := none },
   { docId := some "d2", score := some (3 / 4), content := some ("beta".toList) }]

/-- Witness for `search_doc_aggregation` at a concrete non-empty match
list. -/
theorem search_doc_aggregation_witness :
    searchWitnessMatches ≠ [] ∧
    (searchResults [] "bob" searchWitnessMatches).length ≤ 10 :=
  ⟨by decide,
    (search_doc_aggregation searchWitnessMatches [] "bob" (by decide)).2.2.2.2⟩

end TeamBlue
